import Mathlib

/-!
Verification development for the `dit` TFTP implementation.

The Go sources are shallowly embedded here:
* the packet codec of `src/tftp.go` (namespace `dit`): opcodes, options,
  `ValidateOptValue`, `getNullTerminatedStrings`, the per-packet
  `marshal`/`unmarshal` methods and the `Marshal`/`Unmarshal` entry points;
* the retransmission file buffer of `src/unnamed/part_000`
  (`FileBuffer.ReadNext`, `WriteNext`, `BufferLen`, `ReadBuffer`, `Reset`);
* the connection layer of `src/dit.go` (`Conn.Read` with the
  transfer-identifier check);
* the listener draft of `src/unnamed/part_002` (namespace `ditp2`):
  `Conn.AcceptRange` and `connectWithRange`.

Go byte slices are modelled as `List Nat` of byte values, Go strings as their
byte lists, Go `int` as `Int` (64-bit bounds made explicit where the code
checks them), and Go maps as association lists with insert-or-overwrite
semantics.  Fallible Go functions return `Except`; a Go panic (out-of-range
slice on an exact-length slice) is the explicit error value `DecodeErr.crash`.
I/O (sockets, files, randomness) is passed in as explicit inputs: a receive
from the kernel is a `RecvEvent` argument, the backing file of a `FileBuffer`
is the byte list it still holds, and dialling a UDP socket is an oracle
function from attempt number to outcome.
-/

namespace dit

/-- Byte list of an ASCII Lean string literal, used for the option-name and
error-message constants of the source. -/
def strBytes (s : String) : List Nat :=
  s.data.map Char.toNat

/-- Model of `binary.BigEndian.PutUint16`: the two big-endian bytes of a
16-bit value (values are already below 2^16 at every call site; the `% 256`
mirrors the byte truncation performed by the store). -/
def putUint16 (v : Nat) : List Nat :=
  [v / 256 % 256, v % 256]

/-- Model of the `opcode` helper of `src/tftp.go`: big-endian 16-bit read of
the first two bytes.  Callers guard the length (`Marshal` fails with
`DecodeErr.crash` below two bytes, mirroring the panic of an exact slice). -/
def opcode (b : List Nat) : Nat :=
  b.getD 0 0 * 256 + b.getD 1 0

/-- Continuation byte test of UTF-8: `0x80 ≤ c ≤ 0xBF`. -/
def isCont (c : Nat) : Bool :=
  decide (128 ≤ c ∧ c ≤ 191)

/-- Constraint on the first continuation byte of a three-byte sequence,
depending on the lead byte (rules out overlong encodings and surrogates,
as `unicode/utf8.Valid` does). -/
def lead3Ok (c c1 : Nat) : Bool :=
  if c = 224 then decide (160 ≤ c1 ∧ c1 ≤ 191)
  else if c = 237 then decide (128 ≤ c1 ∧ c1 ≤ 159)
  else isCont c1

/-- Constraint on the first continuation byte of a four-byte sequence,
depending on the lead byte (rules out overlongs and values above U+10FFFF). -/
def lead4Ok (c c1 : Nat) : Bool :=
  if c = 240 then decide (144 ≤ c1 ∧ c1 ≤ 191)
  else if c = 244 then decide (128 ≤ c1 ∧ c1 ≤ 143)
  else isCont c1

/-- Recursion worker of `utf8Valid`: validate one UTF-8 sequence (one to
four bytes, classified by the lead byte) and recurse on the remainder.  The
fuel counts list elements and only makes the recursion structural; any fuel
at least the list length gives the validity of the whole list. -/
def utf8ValidAux : Nat → List Nat → Bool
  | 0, s => s.isEmpty
  | fuel + 1, s =>
    match s with
    | [] => true
    | c :: rest =>
      if c ≤ 127 then utf8ValidAux fuel rest
      else if c ≤ 193 then false
      else if c ≤ 223 then
        if 1 ≤ rest.length then isCont (rest.getD 0 0) && utf8ValidAux fuel (rest.drop 1)
        else false
      else if c ≤ 239 then
        if 2 ≤ rest.length then
          lead3Ok c (rest.getD 0 0) && isCont (rest.getD 1 0) && utf8ValidAux fuel (rest.drop 2)
        else false
      else if c ≤ 244 then
        if 3 ≤ rest.length then
          lead4Ok c (rest.getD 0 0) && isCont (rest.getD 1 0) && isCont (rest.getD 2 0)
            && utf8ValidAux fuel (rest.drop 3)
        else false
      else false

/-- Model of `unicode/utf8.Valid` on a byte list. -/
def utf8Valid (s : List Nat) : Bool :=
  utf8ValidAux s.length s

/-- ASCII lowering of a byte, modelling `strings.ToLower` on the byte level
(the option names compared against are plain ASCII). -/
def toLowerByte (c : Nat) : Nat :=
  if 65 ≤ c ∧ c ≤ 90 then c + 32 else c

/-- Bytewise `strings.ToLower`. -/
def toLowerBytes (s : List Nat) : List Nat :=
  s.map toLowerByte

/-- Model of the `Option` enumeration of `src/tftp.go` (RFC 2347/2348/2349/7440
option kinds, with `Unknown` for unrecognised names). -/
inductive Option
  | Blksize
  | Timeout
  | Tsize
  | Windowsize
  | Unknown
deriving DecidableEq, Repr

/-- Model of `MarshalOpts`: map a wire option-name string to its `Option`
value, case-insensitively; unrecognised names map to `Unknown`. -/
def MarshalOpts (s : List Nat) : Option :=
  let l := toLowerBytes s
  if l = strBytes "blksize" then .Blksize
  else if l = strBytes "timeout" then .Timeout
  else if l = strBytes "tsize" then .Tsize
  else if l = strBytes "windowsize" then .Windowsize
  else .Unknown

/-- Model of `UnmarshalOpts`: the wire name of an option. -/
def UnmarshalOpts (o : Option) : List Nat :=
  match o with
  | .Blksize => strBytes "blksize"
  | .Timeout => strBytes "timeout"
  | .Tsize => strBytes "tsize"
  | .Windowsize => strBytes "windowsize"
  | .Unknown => strBytes "unknown"

/-- Little-endian decimal digit characters of `n`, least significant first.
The fuel argument only bounds the recursion; any fuel at least `n` gives the
digits of `n` (each call divides `n` by ten). -/
def natToDigitsAux : Nat → Nat → List Nat
  | 0, _ => []
  | fuel + 1, n => if n = 0 then [] else (n % 10 + 48) :: natToDigitsAux fuel (n / 10)

/-- Decimal ASCII representation of a natural number, most significant digit
first, as produced by `strconv.Itoa` for non-negative values. -/
def natToDecimal (n : Nat) : List Nat :=
  if n = 0 then [48] else (natToDigitsAux n n).reverse

/-- Model of `strconv.Itoa`: decimal ASCII of an integer, with a leading
minus sign for negative values. -/
def itoa (v : Int) : List Nat :=
  if v < 0 then 45 :: natToDecimal (-v).toNat else natToDecimal v.toNat

/-- Decimal value of a digit character list, most significant first. -/
def digitsToNat (s : List Nat) : Nat :=
  s.foldl (fun a c => a * 10 + (c - 48)) 0

/-- Digit-run part of `strconv.Atoi`: all characters must be decimal digits,
and the resulting value must fit in a 64-bit `int` (Go returns `ErrRange`
otherwise, which the callers treat as any other parse error). -/
def atoiDigits (ds : List Nat) (neg : Bool) : Except Unit Int :=
  if ds.isEmpty then .error ()
  else if ds.all (fun c => decide (48 ≤ c ∧ c ≤ 57)) then
    if neg then
      if digitsToNat ds ≤ 2 ^ 63 then .ok (-(digitsToNat ds : Int)) else .error ()
    else
      if digitsToNat ds < 2 ^ 63 then .ok ((digitsToNat ds : Int)) else .error ()
  else .error ()

/-- Model of `strconv.Atoi`: optional single leading sign, then decimal
digits; empty input, stray characters and 64-bit overflow are errors. -/
def atoi (s : List Nat) : Except Unit Int :=
  match s with
  | [] => .error ()
  | c :: rest =>
    if c = 43 then atoiDigits rest false
    else if c = 45 then atoiDigits rest true
    else atoiDigits s false

/-- Model of `ValidateOptValue` of `src/tftp.go`: parse the decimal value and
check it against the per-option range.  `Tsize` accepts every parsed integer
(the source returns `valInt, nil` without a range check); the fall-through
for `Unknown` and out-of-range values is `ErrInvalidOptVal`, modelled as the
unit error. -/
def ValidateOptValue (opt : Option) (val : List Nat) : Except Unit Int :=
  match atoi val with
  | .error e => .error e
  | .ok n =>
    match opt with
    | .Blksize => if 8 ≤ n ∧ n ≤ 65464 then .ok n else .error ()
    | .Timeout => if 1 ≤ n ∧ n ≤ 255 then .ok n else .error ()
    | .Tsize => .ok n
    | .Windowsize => if 1 ≤ n ∧ n ≤ 65535 then .ok n else .error ()
    | .Unknown => .error ()

/-- Model of `nullTerminate`: append the terminating zero byte. -/
def nullTerminate (s : List Nat) : List Nat :=
  s ++ [0]

/-- Loop of `getNullTerminatedStrings`.  `i` is the scan position, `lastNull`
the index one past the previous accepted terminator, `acc` the strings
collected so far; the boolean of the result is the error flag (invalid UTF-8
segment).  The fuel counts the remaining loop iterations (`strs.length - i`
at every call) and only makes the recursion structural. -/
def gntsLoop (strs : List Nat) : Nat → Nat → Nat → List (List Nat) → List (List Nat) × Bool
  | 0, _, _, acc => (acc, false)
  | fuel + 1, i, lastNull, acc =>
    if i < strs.length then
      if strs.getD i 0 = 0 then
        let seg := (strs.drop lastNull).take (i - lastNull)
        if 1 ≤ seg.length then
          if utf8Valid seg then gntsLoop strs fuel (i + 1) (i + 1) (acc ++ [seg])
          else (acc, true)
        else gntsLoop strs fuel (i + 1) lastNull acc
      else gntsLoop strs fuel (i + 1) lastNull acc
    else (acc, false)

/-- Model of `getNullTerminatedStrings` of `src/tftp.go`: collect the
null-terminated byte strings of `strs` (skipping empty segments without
advancing `lastNull`, as the source does), returning the partial list and an
error flag when a segment fails the UTF-8 check.  The body only runs when at
least two bytes are present. -/
def getNullTerminatedStrings (strs : List Nat) : List (List Nat) × Bool :=
  if 2 ≤ strs.length then gntsLoop strs strs.length 0 0 [] else ([], false)

/-- Go map assignment `m[k] = v` on an association list: overwrite the
binding when the key is present, append it otherwise. -/
def mapSet : List (Option × Int) → Option → Int → List (Option × Int)
  | [], k, v => [(k, v)]
  | (k0, v0) :: rest, k, v =>
    if k0 = k then (k, v) :: rest else (k0, v0) :: mapSet rest k v

/-- Outcome of the option-pair loop shared by `ReadWriteRequest.unmarshal`
and `OAckPacket.unmarshal`: either the collected options together with the
final value of the shared `err` variable (true when the last
`ValidateOptValue` of a recognised name failed), or a crash when the loop
indexes one past an odd-length list (`optVals[i+1]` with `i` the last
index). -/
inductive OptLoopRes
  | ok (options : List (Option × Int)) (err : Bool)
  | crash
deriving DecidableEq, Repr

/-- Model of the option-pair loop (`for i := 0; i < len(optVals); i += 2`).
Unknown names are skipped without touching `err`; recognised names assign
`err` from `ValidateOptValue` and store the value only on success. -/
def optLoop : List (List Nat) → List (Option × Int) → Bool → OptLoopRes
  | [], options, err => .ok options err
  | [name], options, err =>
    if MarshalOpts name = .Unknown then .ok options err else .crash
  | name :: val :: rest, options, err =>
    let opt := MarshalOpts name
    if opt = .Unknown then optLoop rest options err
    else
      match ValidateOptValue opt val with
      | .ok v => optLoop rest (mapSet options opt v) false
      | .error _ => optLoop rest options true

/-- Model of the `Packet` variants of `src/tftp.go`.  Each constructor
mirrors one packet struct, including its stored `Opcode` field; byte strings
(`Filename`, `Mode`, `ErrMsg`, `Data`) are byte lists and the options map is
an association list. -/
inductive Packet
  | ReadWriteRequest (Opcode : Nat) (Filename Mode : List Nat) (Options : List (Option × Int))
  | DataPacket (Opcode : Nat) (BlockNumber : Nat) (Data : List Nat)
  | AckPacket (Opcode : Nat) (BlockNumber : Nat)
  | ErrorPacket (Opcode : Nat) (ErrorCode : Nat) (ErrMsg : List Nat)
  | OAckPacket (Opcode : Nat) (Options : List (Option × Int))
deriving DecidableEq, Repr

/-- Decode errors of the codec: `unrecognizedOpcode` is the
`opcode %d not recognized` error of `Marshal`; `unmarshalErr` is any non-nil
error returned by a packet's `unmarshal` method; `crash` is a Go panic
(slice index out of range on an exact-length slice). -/
inductive DecodeErr
  | unrecognizedOpcode (op : Nat)
  | unmarshalErr
  | crash
deriving DecidableEq, Repr

/-- Wire bytes of the option pairs of a request or option acknowledgement:
for each pair a null-terminated name and a null-terminated decimal value, in
association-list order (one iteration order of the Go map). -/
def optBytes (opts : List (Option × Int)) : List Nat :=
  (opts.map fun ov => nullTerminate (UnmarshalOpts ov.1) ++ nullTerminate (itoa ov.2)).flatten

/-- Model of the `marshal` methods of the five packet structs.  Every method
of the source returns a nil error, so every branch is `.ok`. -/
def Packet.marshal : Packet → Except Unit (List Nat)
  | .ReadWriteRequest op fn mode opts =>
    .ok (putUint16 op ++ nullTerminate fn ++ nullTerminate mode ++ optBytes opts)
  | .DataPacket op blk d => .ok (putUint16 op ++ putUint16 blk ++ d)
  | .AckPacket op blk => .ok (putUint16 op ++ putUint16 blk)
  | .ErrorPacket op code msg => .ok (putUint16 op ++ putUint16 code ++ nullTerminate msg)
  | .OAckPacket op opts => .ok (putUint16 op ++ optBytes opts)

/-- Model of `Unmarshal` of `src/tftp.go` (the encoder entry point): marshal
the structured packet to its wire bytes. -/
def Unmarshal (p : Packet) : Except Unit (List Nat) :=
  p.marshal

/-- Model of `ReadWriteRequest.unmarshal`.  A UTF-8 failure of
`getNullTerminatedStrings` is returned immediately; with fewer than two
strings the fields keep their zero values; the option loop shares the
function-scoped `err`, so its final value (the result of the last
`ValidateOptValue` on a recognised name) is what `unmarshal` returns. -/
def unmarshalRW (op : Nat) (b : List Nat) : Except DecodeErr Packet :=
  let r := getNullTerminatedStrings (b.drop 2)
  if r.2 then .error .unmarshalErr
  else
    let strVals := r.1
    if 2 ≤ strVals.length then
      let fn := strVals.getD 0 []
      let mode := strVals.getD 1 []
      let optVals := strVals.drop 2
      if 2 ≤ optVals.length then
        match optLoop optVals [] false with
        | .crash => .error .crash
        | .ok options err =>
          if err then .error .unmarshalErr
          else .ok (.ReadWriteRequest op fn mode (if 1 ≤ options.length then options else []))
      else .ok (.ReadWriteRequest op fn mode [])
    else .ok (.ReadWriteRequest op [] [] [])

/-- Model of `OAckPacket.unmarshal`.  With at least two collected strings the
option loop runs and its `err` is discarded (the method returns nil); the
UTF-8 error flag is only consulted when fewer than two strings came back. -/
def unmarshalOAck (op : Nat) (b : List Nat) : Except DecodeErr Packet :=
  let r := getNullTerminatedStrings (b.drop 2)
  if 2 ≤ r.1.length then
    match optLoop r.1 [] false with
    | .crash => .error .crash
    | .ok options _ =>
      .ok (.OAckPacket op (if 1 ≤ options.length then options else []))
  else if r.2 then .error .unmarshalErr
  else .ok (.OAckPacket op [])

/-- Model of `DataPacket.unmarshal`: read the big-endian block number from
bytes two and three and copy the rest as payload.  On an exact slice shorter
than four bytes the source's `b[2:4]` panics, modelled as `.crash`. -/
def unmarshalData (op : Nat) (b : List Nat) : Except DecodeErr Packet :=
  if b.length < 4 then .error .crash
  else .ok (.DataPacket op (b.getD 2 0 * 256 + b.getD 3 0) (b.drop 4))

/-- Model of `AckPacket.unmarshal`: read the big-endian block number; the
same out-of-range slice panic applies below four bytes. -/
def unmarshalAck (op : Nat) (b : List Nat) : Except DecodeErr Packet :=
  if b.length < 4 then .error .crash
  else .ok (.AckPacket op (b.getD 2 0 * 256 + b.getD 3 0))

/-- Model of `ErrorPacket.unmarshal`: read the error code, then collect the
null-terminated strings after byte four and join them with single spaces; a
UTF-8 failure is returned as an error. -/
def unmarshalError (op : Nat) (b : List Nat) : Except DecodeErr Packet :=
  if b.length < 4 then .error .crash
  else
    let r := getNullTerminatedStrings (b.drop 4)
    if r.2 then .error .unmarshalErr
    else
      let msg := if 1 ≤ r.1.length then (r.1.intersperse (strBytes " ")).flatten else []
      .ok (.ErrorPacket op (b.getD 2 0 * 256 + b.getD 3 0) msg)

/-- Model of `Marshal` of `src/tftp.go` (the decoder entry point): dispatch
on the opcode, then run the variant's `unmarshal`.  Reading the opcode of an
exact slice shorter than two bytes panics, modelled as `.crash`; opcodes
outside one to six yield the `not recognized` error. -/
def Marshal (b : List Nat) : Except DecodeErr Packet :=
  if b.length < 2 then .error .crash
  else
    let op := opcode b
    if op = 1 ∨ op = 2 then unmarshalRW op b
    else if op = 3 then unmarshalData op b
    else if op = 4 then unmarshalAck op b
    else if op = 6 then unmarshalOAck op b
    else if op = 5 then unmarshalError op b
    else .error (.unrecognizedOpcode op)

/-- Well-formed wire string: non-empty, free of the zero terminator, and
valid UTF-8 (as `filename`, `mode` and option values must be). -/
def wfStr (s : List Nat) : Bool :=
  decide (1 ≤ s.length) && s.all (fun c => decide (c ≠ 0)) && utf8Valid s

/-- Specified range of each option value (spec section three), together with
the 64-bit bound every Go `int` satisfies by construction. -/
def inRange (o : Option) (v : Int) : Bool :=
  match o with
  | .Blksize => decide (8 ≤ v ∧ v ≤ 65464)
  | .Timeout => decide (1 ≤ v ∧ v ≤ 255)
  | .Tsize => decide (0 ≤ v ∧ v < 2 ^ 63)
  | .Windowsize => decide (1 ≤ v ∧ v ≤ 65535)
  | .Unknown => false

/-- Well-formed packet with in-range fields: the stored opcode matches the
variant, strings are well formed, block numbers and error codes fit sixteen
bits, payload entries are bytes, option keys are distinct and every option
value is in its specified range. -/
def Packet.wfb : Packet → Bool
  | .ReadWriteRequest op fn mode opts =>
    (decide (op = 1) || decide (op = 2)) && wfStr fn && wfStr mode
      && opts.all (fun ov => inRange ov.1 ov.2) && decide (opts.map Prod.fst).Nodup
  | .DataPacket op blk d =>
    decide (op = 3) && decide (blk < 65536) && d.all (fun c => decide (c < 256))
  | .AckPacket op blk => decide (op = 4) && decide (blk < 65536)
  | .ErrorPacket op code msg =>
    decide (op = 5) && decide (code < 65536)
      && (decide (msg.length = 0) || (msg.all (fun c => decide (c ≠ 0)) && utf8Valid msg))
  | .OAckPacket op opts =>
    decide (op = 6) && opts.all (fun ov => inRange ov.1 ov.2)
      && decide (opts.map Prod.fst).Nodup

/-- Options carried by a decoded packet (empty for variants without an
options map). -/
def Packet.optionsOf : Packet → List (Option × Int)
  | .ReadWriteRequest _ _ _ opts => opts
  | .OAckPacket _ opts => opts
  | _ => []

/-- Concatenation of null-terminated segments, the shape of the wire bytes
produced by the request and option-acknowledgement encoders. -/
def joinNul : List (List Nat) → List Nat
  | [] => []
  | s :: rest => s ++ 0 :: joinNul rest

/-- Option pairs as the flat list of wire strings: name, value, name,
value, in order. -/
def optStrings (opts : List (Option × Int)) : List (List Nat) :=
  (opts.map fun ov => [UnmarshalOpts ov.1, itoa ov.2]).flatten

/-- Range every decoded option value actually satisfies: the specified
interval for `Blksize`, `Timeout` and `Windowsize`, but for `Tsize` only
the 64-bit `int` bounds that `strconv.Atoi` enforces — negative transfer
sizes are accepted.  `Unknown` keys never appear. -/
def decodedRange (o : Option) (v : Int) : Prop :=
  match o with
  | .Blksize => 8 ≤ v ∧ v ≤ 65464
  | .Timeout => 1 ≤ v ∧ v ≤ 255
  | .Tsize => -(2 ^ 63) ≤ v ∧ v < 2 ^ 63
  | .Windowsize => 1 ≤ v ∧ v ≤ 65535
  | .Unknown => False


/-- Model of the `FileBuffer` of `src/unnamed/part_000`.  The buffered
reader over the backing file is modelled by the bytes it still holds
(`src`), the buffered writer by the bytes written through it (`sink`), and
`buf` is the retransmission buffer (`bytes.Buffer`). -/
structure FileBuffer where
  src : List Nat
  sink : List Nat
  buf : List Nat
deriving DecidableEq, Repr

/-- Model of `NewFileBuffer`: an empty retransmission buffer over an empty
backing source and sink. -/
def NewFileBuffer : FileBuffer :=
  ⟨[], [], []⟩

/-- Result of a read-side `FileBuffer` operation: byte count, the contents
of the caller's buffer after the call, the state of the `FileBuffer`, and
whether the read hit end of file. -/
structure FBReadRes where
  count : Nat
  filled : List Nat
  state : FileBuffer
  eof : Bool
deriving DecidableEq, Repr

/-- Result of a write-side `FileBuffer` operation: the byte count written
and the state of the `FileBuffer`.  `bufio.Writer.Write` into the memory
model always accepts every byte, so no error component is needed. -/
structure FBWriteRes where
  count : Nat
  state : FileBuffer
deriving DecidableEq, Repr

/-- Model of `FileBuffer.Read` (`f.r.Read(b)` over the memory-backed
reader): copy up to `len(b)` bytes from the remaining source into the front
of `b`; the read count is the full available amount, and end of file is
reported when nothing could be read into a non-empty buffer. -/
def FileBuffer.Read (f : FileBuffer) (b : List Nat) : FBReadRes :=
  let k := min b.length f.src.length
  { count := k
    filled := f.src.take k ++ b.drop k
    state := { f with src := f.src.drop k }
    eof := decide (k = 0 ∧ 1 ≤ b.length) }

/-- Model of `FileBuffer.ReadNext`: read, then, only when at least one byte
came back, reset the retransmission buffer and store exactly the bytes
read. -/
def FileBuffer.ReadNext (f : FileBuffer) (b : List Nat) : FBReadRes :=
  let r := f.Read b
  if 0 < r.count then
    { r with state := { r.state with buf := r.filled.take r.count } }
  else r

/-- Model of `FileBuffer.Write` (`f.w.Write(b)` over the memory-backed
writer): append every byte to the sink. -/
def FileBuffer.Write (f : FileBuffer) (b : List Nat) : FBWriteRes :=
  { count := b.length, state := { f with sink := f.sink ++ b } }

/-- Model of `FileBuffer.WriteNext`: write, then, only when at least one
byte was written, append the written prefix to the retransmission buffer.
Unlike `ReadNext`, the source never resets `buf` here, so the bytes
accumulate across calls. -/
def FileBuffer.WriteNext (f : FileBuffer) (b : List Nat) : FBWriteRes :=
  let r := f.Write b
  if 0 < r.count then
    { r with state := { r.state with buf := r.state.buf ++ b.take r.count } }
  else r

/-- Model of `FileBuffer.BufferLen`: length of the retransmission buffer. -/
def FileBuffer.BufferLen (f : FileBuffer) : Nat :=
  f.buf.length

/-- Model of `FileBuffer.ReadBuffer` (`copy(b, f.buf.Bytes())`): copy
`min(len(b), BufferLen())` bytes of the retransmission buffer into the
front of `b`.  The method only reads the receiver, so the returned state is
the unchanged `f`. -/
def FileBuffer.ReadBuffer (f : FileBuffer) (b : List Nat) : Nat × List Nat × FileBuffer :=
  let k := min b.length f.buf.length
  (k, f.buf.take k ++ b.drop k, f)

/-- Model of `FileBuffer.Reset`: clear the retransmission buffer. -/
def FileBuffer.Reset (f : FileBuffer) : FileBuffer :=
  { f with buf := [] }

/-- Address and port of a UDP endpoint (`netip.AddrPort`); the port is the
transfer identifier of the TFTP peer. -/
structure AddrPort where
  ip : Nat
  port : Nat
deriving DecidableEq, Repr

/-- Outcome of one kernel receive on a UDP socket, passed to `Conn.Read` as
an explicit input: a delivered datagram with its source address, or a
socket error (timeout, closed socket). -/
inductive RecvEvent
  | ok (data : List Nat) (src : AddrPort)
  | fail
deriving DecidableEq, Repr

/-- Errors surfaced by `Conn.Read`: `unexpectedTID` is `ErrUnexpectedTID`
(datagram from a source other than the connected peer), `netFail` any error
of the underlying socket read. -/
inductive NetErr
  | nil
  | unexpectedTID
  | netFail
deriving DecidableEq, Repr

/-- Model of the `Conn` of `src/dit.go`, restricted to the fields the
embedded operations consult: the peer transfer identifier and the
connected flag.  The socket handle and the request-buffer closure are I/O
resources outside the embedding. -/
structure Conn where
  destTID : AddrPort
  connected : Bool
deriving DecidableEq, Repr

/-- Result of `Conn.Read`: byte count, the caller's buffer after the call,
the error value, and the connection state after the call. -/
structure ConnReadRes where
  n : Nat
  filled : List Nat
  err : NetErr
  state : Conn
deriving DecidableEq, Repr

/-- Model of `Conn.Read` of `src/dit.go`.  On a connected `Conn` the
datagram is received from any source and `ErrUnexpectedTID` is returned
when the kernel reported no error but the source differs from `destTID`;
the method never writes to the connection, so the state of the result is
the receiver unchanged.  On an unconnected `Conn` the plain socket read is
used and no source check happens. -/
def Conn.Read (c : Conn) (b : List Nat) (ev : RecvEvent) : ConnReadRes :=
  if c.connected then
    match ev with
    | .ok data src =>
      let n := min b.length data.length
      if src ≠ c.destTID then ⟨n, data.take n ++ b.drop n, .unexpectedTID, c⟩
      else ⟨n, data.take n ++ b.drop n, .nil, c⟩
    | .fail => ⟨0, b, .netFail, c⟩
  else
    match ev with
    | .ok data _ => ⟨min b.length data.length, data.take (min b.length data.length) ++ b.drop (min b.length data.length), .nil, c⟩
    | .fail => ⟨0, b, .netFail, c⟩

end dit

namespace ditp2

/-- Model of the `encode` helper of `src/tftp.go` as used by the listener
draft: only the `Error` opcode (five) is implemented and yields the
marshalled error packet. -/
def encode (op : Nat) (code : Nat) (msg : List Nat) : Except Unit (List Nat) :=
  if op = 5 then dit.Unmarshal (.ErrorPacket op code msg) else .error ()

/-- Wire bytes sent by `writeErrTo`: the marshalled error packet for the
given code and message (the marshal of an error packet never fails). -/
def errPacketBytes (code : Nat) (msg : List Nat) : List Nat :=
  match encode 5 code msg with
  | .ok bs => bs
  | .error _ => []

/-- Outcome of one `net.DialUDP` attempt, supplied by the environment
oracle: a socket handle or a bind failure. -/
inductive DialRes
  | ok (handle : Nat)
  | err
deriving DecidableEq, Repr

/-- Socket handle reference of a `Conn` (`*net.UDPConn`), possibly nil. -/
inductive ConnHandle
  | nil
  | sock (handle : Nat)
deriving DecidableEq, Repr

/-- Result of `connectWithRange`: the connection handle, whether a non-nil
error was returned, and how many dial attempts were executed. -/
structure CWRResult where
  conn : ConnHandle
  errored : Bool
  attempts : Nat
deriving DecidableEq, Repr

/-- Model of `connectWithRange` of `src/unnamed/part_002`.  With range
`(0,0)` one dial on an OS-chosen port is attempted (outcome from the
oracle).  With any other range the source runs
`for i := 0; i > 10; i++ { ... }`: the guard `i > 10` is false at `i = 0`,
so the body — resolve a random port in `[lo,hi]` and dial it — is dead code
and never executes; zero attempts are made and the nil connection is
returned together with a nil error. -/
def connectWithRange (lo hi : Nat) (dialEnv : Nat → DialRes) : CWRResult :=
  if lo = 0 ∧ hi = 0 then
    match dialEnv 0 with
    | .ok h => ⟨.sock h, false, 1⟩
    | .err => ⟨.nil, true, 1⟩
  else ⟨.nil, false, 0⟩

/-- Model of the `Conn` of `src/unnamed/part_002`: socket handle, peer port
(the transfer identifier, a `uint16` in this draft), connected flag, and
the decoded request of an accepted connection. -/
structure Conn where
  c : ConnHandle
  destTID : Nat
  connected : Bool
  req : List dit.Packet
deriving DecidableEq, Repr

/-- One iteration input of the `AcceptRange` loop: the received datagram
(already truncated to the 256-byte receive buffer), its source address, and
the dial oracle for `connectWithRange` in this iteration. -/
structure AcceptEvent where
  data : List Nat
  raddr : dit.AddrPort
  dialEnv : Nat → DialRes

/-- Result of running `AcceptRange` on a list of receive events: a new
connection, a `nil, err` style return, or exhaustion of the supplied
events (the loop would keep polling).  Each constructor carries the error
packets written to sources so far, oldest first, with their destinations. -/
inductive AcceptResult
  | conn (c : Conn) (sent : List (List Nat × dit.AddrPort))
  | fail (sent : List (List Nat × dit.AddrPort))
  | outOfInput (sent : List (List Nat × dit.AddrPort))

/-- Record one more sent error packet, oldest first, in front of the sends
of a later iteration. -/
def AcceptResult.consSent (r : AcceptResult) (s : List Nat × dit.AddrPort) : AcceptResult :=
  match r with
  | .conn c sent => .conn c (s :: sent)
  | .fail sent => .fail (s :: sent)
  | .outOfInput sent => .outOfInput (s :: sent)

/-- Loop body of `AcceptRange` of `src/unnamed/part_002`, one recursion per
received datagram.  A datagram whose opcode is neither `Rrq` nor `Wrq` gets
an `IllegalOperation` error packet written back to its source and the loop
continues; a datagram that fails to decode gets a `NotDefined` error packet
and the loop continues; otherwise `connectWithRange` picks the local
transfer identifier and a connected `Conn` for the request is returned
(when it reports an error, a `NotDefined` packet is sent and the call
returns). -/
def acceptLoop (lo hi : Nat) : List AcceptEvent → AcceptResult
  | [] => .outOfInput []
  | e :: rest =>
    let op := dit.opcode e.data
    if ¬(op = 1 ∨ op = 2) then
      (acceptLoop lo hi rest).consSent
        (errPacketBytes 4 (dit.strBytes "cannot perform operation"), e.raddr)
    else
      match dit.Marshal e.data with
      | .error _ =>
        (acceptLoop lo hi rest).consSent
          (errPacketBytes 0 (dit.strBytes "could not decode packet"), e.raddr)
      | .ok req =>
        let r := connectWithRange lo hi e.dialEnv
        if r.errored then
          .fail [(errPacketBytes 0 (dit.strBytes "could not connect"), e.raddr)]
        else
          .conn ⟨r.conn, e.raddr.port, true, [req]⟩ []

/-- Model of `Conn.AcceptRange`: a connected (client) `Conn` refuses to
accept; a listener runs the polling loop over the supplied receive
events. -/
def Conn.AcceptRange (c : Conn) (lo hi : Nat) (events : List AcceptEvent) : AcceptResult :=
  if c.connected then .fail [] else acceptLoop lo hi events

/-- Model of `Conn.Accept`: `AcceptRange` with the zero range. -/
def Conn.Accept (c : Conn) (events : List AcceptEvent) : AcceptResult :=
  c.AcceptRange 0 0 events

end ditp2

namespace dit

theorem natToDigitsAux_mem {fuel n c : Nat} (h : c ∈ natToDigitsAux fuel n) :
    48 ≤ c ∧ c ≤ 57 := by
  induction fuel generalizing n with
  | zero => simp [natToDigitsAux] at h
  | succ f ih =>
    by_cases hn : n = 0
    · simp [natToDigitsAux, hn] at h
    · simp only [natToDigitsAux, if_neg hn, List.mem_cons] at h
      rcases h with h | h
      · subst h
        have := Nat.mod_lt n (show 0 < 10 by norm_num)
        omega
      · exact ih h

theorem digitsToNat_append_singleton (l : List Nat) (d a : Nat) :
    List.foldl (fun a c => a * 10 + (c - 48)) a (l ++ [d]) =
      List.foldl (fun a c => a * 10 + (c - 48)) a l * 10 + (d - 48) := by
  rw [List.foldl_append]
  rfl

theorem foldl_natToDigitsAux (fuel : Nat) :
    ∀ n a, n ≤ fuel →
      List.foldl (fun a c => a * 10 + (c - 48)) a (natToDigitsAux fuel n).reverse =
        a * 10 ^ (natToDigitsAux fuel n).length + n := by
  induction fuel with
  | zero =>
    intro n a h
    interval_cases n
    simp [natToDigitsAux]
  | succ f ih =>
    intro n a h
    by_cases hn : n = 0
    · simp [natToDigitsAux, hn]
    · have hdiv : n / 10 ≤ f := by omega
      simp only [natToDigitsAux, if_neg hn, List.reverse_cons]
      rw [digitsToNat_append_singleton, ih (n / 10) a hdiv]
      have hmod : n % 10 + 48 - 48 = n % 10 := by omega
      rw [hmod, List.length_cons, pow_succ]
      have := Nat.div_add_mod n 10
      ring_nf
      omega

theorem digitsToNat_natToDecimal (n : Nat) : digitsToNat (natToDecimal n) = n := by
  by_cases hn : n = 0
  · simp [natToDecimal, hn, digitsToNat]
  · unfold natToDecimal digitsToNat
    rw [if_neg hn, foldl_natToDigitsAux n n 0 le_rfl]
    simp

theorem natToDecimal_mem {n c : Nat} (h : c ∈ natToDecimal n) : 48 ≤ c ∧ c ≤ 57 := by
  by_cases hn : n = 0
  · simp [natToDecimal, hn] at h
    omega
  · simp only [natToDecimal, if_neg hn, List.mem_reverse] at h
    exact natToDigitsAux_mem h

theorem natToDecimal_ne_nil (n : Nat) : natToDecimal n ≠ [] := by
  by_cases hn : n = 0
  · simp [natToDecimal, hn]
  · obtain ⟨f, hf⟩ : ∃ f, n = f + 1 := ⟨n - 1, by omega⟩
    simp [natToDecimal, hn, hf, natToDigitsAux]

theorem atoi_of_digits (s : List Nat) (hne : s ≠ [])
    (hdig : ∀ c ∈ s, 48 ≤ c ∧ c ≤ 57) (hbound : digitsToNat s < 2 ^ 63) :
    atoi s = .ok ((digitsToNat s : Nat) : Int) := by
  obtain ⟨c, rest, rfl⟩ : ∃ c rest, s = c :: rest := by
    cases s with
    | nil => exact absurd rfl hne
    | cons c rest => exact ⟨c, rest, rfl⟩
  have hc := hdig c (List.mem_cons_self c rest)
  have h43 : c ≠ 43 := by omega
  have h45 : c ≠ 45 := by omega
  simp only [atoi, if_neg h43, if_neg h45, atoiDigits, List.isEmpty_cons, Bool.false_eq_true,
    if_false]
  rw [if_pos, if_pos hbound]
  exact List.all_eq_true.mpr fun x hx => decide_eq_true (hdig x hx)

theorem itoa_of_nonneg {v : Int} (hv : 0 ≤ v) : itoa v = natToDecimal v.toNat := by
  simp [itoa, not_lt.mpr hv]

theorem atoi_itoa {v : Int} (h0 : 0 ≤ v) (h63 : v < 2 ^ 63) : atoi (itoa v) = .ok v := by
  rw [itoa_of_nonneg h0]
  have hval := digitsToNat_natToDecimal v.toNat
  have hbound : digitsToNat (natToDecimal v.toNat) < 2 ^ 63 := by
    rw [hval]
    omega
  rw [atoi_of_digits _ (natToDecimal_ne_nil _) (fun c hc => natToDecimal_mem hc) hbound, hval]
  congr 1
  omega

theorem itoa_mem {v : Int} {c : Nat} (h : c ∈ itoa v) : 45 ≤ c ∧ c ≤ 57 := by
  unfold itoa at h
  split at h
  · rcases List.mem_cons.mp h with h | h
    · omega
    · have := natToDecimal_mem h
      omega
  · have := natToDecimal_mem h
    omega

theorem utf8ValidAux_of_ascii : ∀ (fuel : Nat) (s : List Nat), s.length ≤ fuel →
    (∀ c ∈ s, c ≤ 127) → utf8ValidAux fuel s = true := by
  intro fuel
  induction fuel with
  | zero =>
    intro s hlen _
    have : s = [] := List.length_eq_zero.mp (by omega)
    subst this
    rfl
  | succ f ih =>
    intro s hlen h
    cases s with
    | nil => rfl
    | cons c rest =>
      have hc : c ≤ 127 := h c (List.mem_cons_self c rest)
      rw [utf8ValidAux, if_pos hc]
      exact ih rest (by simp at hlen; omega) fun x hx => h x (List.mem_cons_of_mem c hx)

theorem utf8Valid_of_ascii {s : List Nat} (h : ∀ c ∈ s, c ≤ 127) : utf8Valid s = true :=
  utf8ValidAux_of_ascii s.length s le_rfl h

theorem wfStr_itoa (v : Int) : wfStr (itoa v) = true := by
  have hne : itoa v ≠ [] := by
    unfold itoa
    split
    · simp
    · exact natToDecimal_ne_nil _
  have hmem : ∀ c ∈ itoa v, 45 ≤ c ∧ c ≤ 57 := fun c hc => itoa_mem hc
  simp only [wfStr, Bool.and_eq_true, decide_eq_true_eq]
  refine ⟨⟨?_, ?_⟩, ?_⟩
  · cases hi : itoa v with
    | nil => exact absurd hi hne
    | cons a l => simp
  · exact List.all_eq_true.mpr fun x hx => decide_eq_true (by have := hmem x hx; omega)
  · exact utf8Valid_of_ascii fun c hc => by have := hmem c hc; omega

theorem joinNul_append (l1 l2 : List (List Nat)) :
    joinNul (l1 ++ l2) = joinNul l1 ++ joinNul l2 := by
  induction l1 with
  | nil => rfl
  | cons s rest ih => simp [joinNul, ih]

theorem optBytes_eq_joinNul (opts : List (Option × Int)) :
    optBytes opts = joinNul (optStrings opts) := by
  induction opts with
  | nil => rfl
  | cons ov rest ih =>
    have h1 : optStrings (ov :: rest) = [UnmarshalOpts ov.1, itoa ov.2] ++ optStrings rest := by
      simp [optStrings]
    have h2 : optBytes (ov :: rest) =
        nullTerminate (UnmarshalOpts ov.1) ++ (nullTerminate (itoa ov.2) ++ optBytes rest) := by
      simp [optBytes, List.append_assoc]
    rw [h2, h1, joinNul_append, ih, joinNul, joinNul, joinNul]
    simp [nullTerminate]

theorem getD_of_drop {strs : List Nat} {i c : Nat} {rest : List Nat}
    (h : strs.drop i = c :: rest) : strs.getD i 0 = c := by
  have h0 : strs[i]? = some c := by
    have h1 : (strs.drop i)[0]? = strs[i + 0]? := List.getElem?_drop strs i 0
    rw [h] at h1
    simpa using h1.symm
  simp [List.getD_eq_getElem?_getD, h0]

theorem lt_length_of_drop_cons {strs : List Nat} {i c : Nat} {rest : List Nat}
    (h : strs.drop i = c :: rest) : i < strs.length := by
  by_contra hge
  rw [List.drop_eq_nil_of_le (by omega)] at h
  exact List.noConfusion h

theorem gntsLoop_scanSeg :
    ∀ (t : List Nat), (∀ c ∈ t, c ≠ 0) →
    ∀ (fuel i : Nat) (lastNull : Nat) (acc : List (List Nat)) (s rest strs : List Nat),
      strs.drop lastNull = s ++ 0 :: rest →
      strs.drop i = t ++ 0 :: rest →
      i + t.length = lastNull + s.length →
      lastNull ≤ i →
      1 ≤ s.length →
      utf8Valid s = true →
      strs.length - i ≤ fuel →
      gntsLoop strs fuel i lastNull acc =
        gntsLoop strs (fuel - (t.length + 1)) (i + t.length + 1) (i + t.length + 1)
          (acc ++ [s]) := by
  intro t
  induction t with
  | nil =>
    intro _ fuel i lastNull acc s rest strs hdropL hdropI hpos hle hs hvalid hfuel
    simp only [List.nil_append] at hdropI
    have hi : i < strs.length := lt_length_of_drop_cons hdropI
    obtain ⟨f, rfl⟩ : ∃ f, fuel = f + 1 := ⟨fuel - 1, by omega⟩
    rw [gntsLoop, if_pos hi, getD_of_drop hdropI, if_pos rfl]
    have hseg : (strs.drop lastNull).take (i - lastNull) = s := by
      rw [hdropL]
      have hlen : i - lastNull = s.length := by
        simp only [List.length_nil] at hpos
        omega
      rw [hlen]
      exact List.take_left' rfl
    rw [hseg, if_pos hs, hvalid, if_pos rfl]
    simp
  | cons c t2 ih =>
    intro hnz fuel i lastNull acc s rest strs hdropL hdropI hpos hle hs hvalid hfuel
    have hi : i < strs.length := lt_length_of_drop_cons (by rw [hdropI]; rfl)
    obtain ⟨f, rfl⟩ : ∃ f, fuel = f + 1 := ⟨fuel - 1, by omega⟩
    have hc : c ≠ 0 := hnz c (List.mem_cons_self c t2)
    rw [gntsLoop, if_pos hi, getD_of_drop (by rw [hdropI]; rfl), if_neg hc]
    have hdropI2 : strs.drop (i + 1) = t2 ++ 0 :: rest := by
      have h1 := List.drop_drop 1 i strs
      rw [hdropI] at h1
      simpa using h1.symm
    have hrec := ih (fun x hx => hnz x (List.mem_cons_of_mem c hx)) f (i + 1) lastNull acc
      s rest strs hdropL hdropI2 (by simp at hpos ⊢; omega) (by omega) hs hvalid (by omega)
    rw [hrec]
    have hfa : f - (t2.length + 1) = f + 1 - ((c :: t2).length + 1) := by
      simp only [List.length_cons]
      omega
    have hpa : i + 1 + t2.length + 1 = i + (c :: t2).length + 1 := by
      simp only [List.length_cons]
      omega
    rw [hfa, hpa]

theorem gntsLoop_segments :
    ∀ (segs : List (List Nat)) (fuel lastNull : Nat) (acc : List (List Nat)) (strs : List Nat),
      strs.drop lastNull = joinNul segs →
      (∀ s ∈ segs, 1 ≤ s.length ∧ (∀ c ∈ s, c ≠ 0) ∧ utf8Valid s = true) →
      strs.length - lastNull ≤ fuel →
      gntsLoop strs fuel lastNull lastNull acc = (acc ++ segs, false) := by
  intro segs
  induction segs with
  | nil =>
    intro fuel lastNull acc strs hdrop _ hfuel
    have hlen : strs.length ≤ lastNull := by
      by_contra hlt
      have : strs.drop lastNull ≠ [] := by
        simp [List.drop_eq_nil_iff]
        omega
      exact this hdrop
    cases fuel with
    | zero => simp [gntsLoop]
    | succ f =>
      rw [gntsLoop, if_neg (by omega)]
      simp
  | cons s rest ih =>
    intro fuel lastNull acc strs hdrop hwf hfuel
    obtain ⟨hs1, hs2, hs3⟩ := hwf s (List.mem_cons_self s rest)
    have hscan := gntsLoop_scanSeg s hs2 fuel lastNull lastNull acc s (joinNul rest) strs
      hdrop hdrop rfl le_rfl hs1 hs3 hfuel
    rw [hscan]
    have hdrop2 : strs.drop (lastNull + s.length + 1) = joinNul rest := by
      have h1 := List.drop_drop (s.length + 1) lastNull strs
      rw [hdrop, joinNul] at h1
      have h2 : (s ++ 0 :: joinNul rest).drop (s.length + 1) = joinNul rest := by
        have h3 : s ++ 0 :: joinNul rest = (s ++ [0]) ++ joinNul rest := by simp
        rw [h3]
        have hl : (s ++ [0]).length = s.length + 1 := by simp
        rw [← hl]
        exact List.drop_left (s ++ [0]) (joinNul rest)
      rw [h2] at h1
      rw [show lastNull + s.length + 1 = lastNull + (s.length + 1) by omega]
      exact h1.symm
    have hrec := ih (fuel - (s.length + 1)) (lastNull + s.length + 1) (acc ++ [s]) strs hdrop2
      (fun x hx => hwf x (List.mem_cons_of_mem s hx)) (by omega)
    rw [hrec]
    simp

theorem gnts_joinNul (segs : List (List Nat))
    (hwf : ∀ s ∈ segs, 1 ≤ s.length ∧ (∀ c ∈ s, c ≠ 0) ∧ utf8Valid s = true)
    (hlen : 2 ≤ (joinNul segs).length) :
    getNullTerminatedStrings (joinNul segs) = (segs, false) := by
  rw [getNullTerminatedStrings, if_pos hlen]
  have := gntsLoop_segments segs (joinNul segs).length 0 [] (joinNul segs)
    (by simp) hwf (by omega)
  simpa using this

theorem MarshalOpts_UnmarshalOpts {o : Option} (h : o ≠ .Unknown) :
    MarshalOpts (UnmarshalOpts o) = o := by
  cases o with
  | Blksize => rfl
  | Timeout => rfl
  | Tsize => rfl
  | Windowsize => rfl
  | Unknown => exact absurd rfl h

theorem wfStr_UnmarshalOpts (o : Option) : wfStr (UnmarshalOpts o) = true := by
  cases o <;> rfl

theorem ValidateOptValue_itoa {o : Option} {v : Int} (h : inRange o v = true) :
    ValidateOptValue o (itoa v) = .ok v := by
  cases o with
  | Blksize =>
    simp only [inRange, decide_eq_true_eq] at h
    rw [ValidateOptValue, atoi_itoa (by omega) (by norm_num; omega)]
    simp [h]
  | Timeout =>
    simp only [inRange, decide_eq_true_eq] at h
    rw [ValidateOptValue, atoi_itoa (by omega) (by norm_num; omega)]
    simp [h]
  | Tsize =>
    simp only [inRange, decide_eq_true_eq] at h
    rw [ValidateOptValue, atoi_itoa (by omega) (by omega)]
  | Windowsize =>
    simp only [inRange, decide_eq_true_eq] at h
    rw [ValidateOptValue, atoi_itoa (by omega) (by norm_num; omega)]
    simp [h]
  | Unknown => simp [inRange] at h

theorem wfStr_triple {s : List Nat} (h : wfStr s = true) :
    1 ≤ s.length ∧ (∀ c ∈ s, c ≠ 0) ∧ utf8Valid s = true := by
  simp only [wfStr, Bool.and_eq_true, decide_eq_true_eq, List.all_eq_true] at h
  exact ⟨h.1.1, h.1.2, h.2⟩

theorem inRange_ne_unknown {o : Option} {v : Int} (h : inRange o v = true) : o ≠ .Unknown := by
  intro he
  subst he
  simp [inRange] at h

theorem mapSet_append {m : List (Option × Int)} {k : Option} (v : Int)
    (h : k ∉ m.map Prod.fst) : mapSet m k v = m ++ [(k, v)] := by
  induction m with
  | nil => rfl
  | cons kv rest ih =>
    simp only [List.map_cons, List.mem_cons] at h
    push_neg at h
    rw [mapSet, if_neg (by exact fun he => h.1 he.symm), ih h.2]
    rfl

theorem optStrings_cons (o : Option) (v : Int) (gs : List (Option × Int)) :
    optStrings ((o, v) :: gs) = UnmarshalOpts o :: itoa v :: optStrings gs := by
  simp [optStrings]

theorem optStrings_length (opts : List (Option × Int)) :
    (optStrings opts).length = 2 * opts.length := by
  induction opts with
  | nil => rfl
  | cons ov rest ih =>
    obtain ⟨o, v⟩ := ov
    rw [optStrings_cons]
    simp [ih]
    omega

theorem optStrings_mem {opts : List (Option × Int)} {s : List Nat} (h : s ∈ optStrings opts) :
    (∃ ov ∈ opts, s = UnmarshalOpts ov.1) ∨ ∃ ov ∈ opts, s = itoa ov.2 := by
  induction opts with
  | nil => simp [optStrings] at h
  | cons ov rest ih =>
    obtain ⟨o, v⟩ := ov
    rw [optStrings_cons] at h
    rcases List.mem_cons.mp h with h1 | h1
    · exact Or.inl ⟨(o, v), List.mem_cons_self _ _, h1⟩
    · rcases List.mem_cons.mp h1 with h2 | h2
      · exact Or.inr ⟨(o, v), List.mem_cons_self _ _, h2⟩
      · rcases ih h2 with ⟨ov2, hm, he⟩ | ⟨ov2, hm, he⟩
        · exact Or.inl ⟨ov2, List.mem_cons_of_mem _ hm, he⟩
        · exact Or.inr ⟨ov2, List.mem_cons_of_mem _ hm, he⟩

theorem optLoop_goodPrefix :
    ∀ (goods : List (Option × Int)) (rest : List (List Nat)) (acc : List (Option × Int)) (e : Bool),
      (∀ ov ∈ goods, inRange ov.1 ov.2 = true) →
      (goods.map Prod.fst).Nodup →
      (∀ ov ∈ goods, ov.1 ∉ acc.map Prod.fst) →
      optLoop (optStrings goods ++ rest) acc e =
        optLoop rest (acc ++ goods) (if goods.isEmpty then e else false) := by
  intro goods
  induction goods with
  | nil =>
    intro rest acc e _ _ _
    simp [optStrings]
  | cons ov gs ih =>
    intro rest acc e hr hnd hdisj
    obtain ⟨o, v⟩ := ov
    have hov : inRange o v = true := hr (o, v) (List.mem_cons_self _ _)
    have ho : o ≠ .Unknown := inRange_ne_unknown hov
    rw [optStrings_cons, List.cons_append, List.cons_append, optLoop]
    simp only [MarshalOpts_UnmarshalOpts ho]
    rw [if_neg ho, ValidateOptValue_itoa hov]
    dsimp only
    have hset : mapSet acc o v = acc ++ [(o, v)] :=
      mapSet_append v (hdisj (o, v) (List.mem_cons_self _ _))
    rw [hset]
    have hnd2 : (gs.map Prod.fst).Nodup := by
      simp only [List.map_cons, List.nodup_cons] at hnd
      exact hnd.2
    have hno : o ∉ gs.map Prod.fst := by
      simp only [List.map_cons, List.nodup_cons] at hnd
      exact hnd.1
    have hdisj2 : ∀ ov2 ∈ gs, ov2.1 ∉ (acc ++ [(o, v)]).map Prod.fst := by
      intro ov2 hm
      simp only [List.map_append, List.mem_append, List.map_cons, List.map_nil,
        List.mem_singleton]
      push_neg
      refine ⟨hdisj ov2 (List.mem_cons_of_mem _ hm), ?_⟩
      intro he
      exact hno (he ▸ List.mem_map_of_mem Prod.fst hm)
    rw [ih rest (acc ++ [(o, v)]) false (fun x hx => hr x (List.mem_cons_of_mem _ hx)) hnd2 hdisj2]
    simp

theorem segs_wf {fn mode : List Nat} {opts : List (Option × Int)}
    (hfn : wfStr fn = true) (hmode : wfStr mode = true) :
    ∀ s ∈ [fn, mode] ++ optStrings opts,
      1 ≤ s.length ∧ (∀ c ∈ s, c ≠ 0) ∧ utf8Valid s = true := by
  intro s hs
  rcases List.mem_append.mp hs with h1 | h1
  · rcases List.mem_cons.mp h1 with h2 | h2
    · exact h2 ▸ wfStr_triple hfn
    · rcases List.mem_cons.mp h2 with h3 | h3
      · exact h3 ▸ wfStr_triple hmode
      · simp at h3
  · rcases optStrings_mem h1 with ⟨ov, _, he⟩ | ⟨ov, _, he⟩
    · exact he ▸ wfStr_triple (wfStr_UnmarshalOpts ov.1)
    · exact he ▸ wfStr_triple (wfStr_itoa ov.2)

theorem joinNul_cons_length {s : List Nat} (rest : List (List Nat)) (h : 1 ≤ s.length) :
    2 ≤ (joinNul (s :: rest)).length := by
  rw [joinNul]
  simp
  omega

theorem optStrings_wf {opts : List (Option × Int)} :
    ∀ s ∈ optStrings opts, 1 ≤ s.length ∧ (∀ c ∈ s, c ≠ 0) ∧ utf8Valid s = true := by
  intro s hs
  rcases optStrings_mem hs with ⟨ov, _, he⟩ | ⟨ov, _, he⟩
  · exact he ▸ wfStr_triple (wfStr_UnmarshalOpts ov.1)
  · exact he ▸ wfStr_triple (wfStr_itoa ov.2)

theorem optLoop_all (opts : List (Option × Int))
    (hopts : ∀ ov ∈ opts, inRange ov.1 ov.2 = true) (hnd : (opts.map Prod.fst).Nodup) :
    optLoop (optStrings opts) [] false = .ok opts (decide (opts = []) && false) := by
  have h := optLoop_goodPrefix opts [] [] false hopts hnd (by simp)
  rw [List.append_nil] at h
  rw [h]
  cases opts with
  | nil => simp [optLoop]
  | cons ov rest => simp [optLoop]

theorem Marshal_RW_bytes (op : Nat) (fn mode : List Nat) (opts : List (Option × Int))
    (hop : op = 1 ∨ op = 2) (hfn : wfStr fn = true) (hmode : wfStr mode = true)
    (hopts : ∀ ov ∈ opts, inRange ov.1 ov.2 = true) (hnd : (opts.map Prod.fst).Nodup) :
    Marshal (putUint16 op ++ nullTerminate fn ++ nullTerminate mode ++ optBytes opts) =
      .ok (.ReadWriteRequest op fn mode opts) := by
  have hd : op / 256 % 256 = 0 := by rcases hop with rfl | rfl <;> rfl
  have hmod : op % 256 = op := by rcases hop with rfl | rfl <;> rfl
  have hb : putUint16 op ++ nullTerminate fn ++ nullTerminate mode ++ optBytes opts =
      0 :: op :: joinNul ([fn, mode] ++ optStrings opts) := by
    simp [putUint16, hd, hmod, nullTerminate, optBytes_eq_joinNul, joinNul_append, joinNul,
      List.append_assoc]
  have hgnts : getNullTerminatedStrings (joinNul ([fn, mode] ++ optStrings opts)) =
      ([fn, mode] ++ optStrings opts, false) := by
    refine gnts_joinNul _ (segs_wf hfn hmode) ?_
    exact joinNul_cons_length _ (wfStr_triple hfn).1
  have hguard : ¬((0 :: op :: joinNul ([fn, mode] ++ optStrings opts)).length < 2) := by
    simp
  rw [hb, Marshal, if_neg hguard]
  have hoc : opcode (0 :: op :: joinNul ([fn, mode] ++ optStrings opts)) = op := by
    simp [opcode]
  simp only [hoc]
  rw [if_pos hop, unmarshalRW]
  simp only [List.drop_succ_cons, List.drop_zero, hgnts]
  simp only [List.cons_append, List.nil_append, List.length_cons, List.getD_cons_zero,
    List.getD_cons_succ, List.drop_succ_cons, List.drop_zero]
  rw [if_neg (by simp)]
  rw [if_pos (by omega)]
  cases opts with
  | nil => simp [optStrings]
  | cons ov rest =>
    have hlen2 : 2 ≤ (optStrings (ov :: rest)).length := by
      rw [optStrings_length]
      simp
    rw [if_pos hlen2, optLoop_all _ hopts hnd]
    simp

theorem Marshal_OAck_bytes (opts : List (Option × Int))
    (hopts : ∀ ov ∈ opts, inRange ov.1 ov.2 = true) (hnd : (opts.map Prod.fst).Nodup) :
    Marshal (putUint16 6 ++ optBytes opts) = .ok (.OAckPacket 6 opts) := by
  cases opts with
  | nil => rfl
  | cons ov rest =>
    obtain ⟨o, v⟩ := ov
    have hb : putUint16 6 ++ optBytes ((o, v) :: rest) =
        0 :: 6 :: joinNul (optStrings ((o, v) :: rest)) := by
      simp [putUint16, optBytes_eq_joinNul]
    have hgnts : getNullTerminatedStrings (joinNul (optStrings ((o, v) :: rest))) =
        (optStrings ((o, v) :: rest), false) := by
      refine gnts_joinNul _ optStrings_wf ?_
      rw [optStrings_cons]
      exact joinNul_cons_length _ (wfStr_triple (wfStr_UnmarshalOpts o)).1
    have hguard : ¬((0 :: 6 :: joinNul (optStrings ((o, v) :: rest))).length < 2) := by
      simp
    rw [hb, Marshal, if_neg hguard]
    have hoc : opcode (0 :: 6 :: joinNul (optStrings ((o, v) :: rest))) = 6 := by
      simp [opcode]
    simp only [hoc]
    norm_num
    rw [unmarshalOAck]
    simp only [List.drop_succ_cons, List.drop_zero, hgnts]
    have hlen2 : 2 ≤ (optStrings ((o, v) :: rest)).length := by
      rw [optStrings_length]
      simp
    rw [if_pos hlen2, optLoop_all _ hopts hnd]
    simp

theorem Marshal_Data_bytes (blk : Nat) (d : List Nat) (hblk : blk < 65536) :
    Marshal (putUint16 3 ++ putUint16 blk ++ d) = .ok (.DataPacket 3 blk d) := by
  have hdiv : blk / 256 % 256 = blk / 256 := Nat.mod_eq_of_lt (by omega)
  have hb : putUint16 3 ++ putUint16 blk ++ d = 0 :: 3 :: blk / 256 :: blk % 256 :: d := by
    simp [putUint16, hdiv]
  have hguard : ¬((0 :: 3 :: blk / 256 :: blk % 256 :: d).length < 2) := by simp
  rw [hb, Marshal, if_neg hguard]
  have hoc : opcode (0 :: 3 :: blk / 256 :: blk % 256 :: d) = 3 := by simp [opcode]
  simp only [hoc]
  norm_num
  rw [unmarshalData]
  rw [if_neg (by simp only [List.length_cons]; omega)]
  simp only [List.getD_cons_zero, List.getD_cons_succ, List.drop_succ_cons, List.drop_zero]
  rw [show blk / 256 * 256 + blk % 256 = blk from by omega]

theorem Marshal_Ack_bytes (blk : Nat) (hblk : blk < 65536) :
    Marshal (putUint16 4 ++ putUint16 blk) = .ok (.AckPacket 4 blk) := by
  have hdiv : blk / 256 % 256 = blk / 256 := Nat.mod_eq_of_lt (by omega)
  have hb : putUint16 4 ++ putUint16 blk = [0, 4, blk / 256, blk % 256] := by
    simp [putUint16, hdiv]
  have hguard : ¬(([0, 4, blk / 256, blk % 256] : List Nat).length < 2) := by simp
  rw [hb, Marshal, if_neg hguard]
  have hoc : opcode [0, 4, blk / 256, blk % 256] = 4 := by simp [opcode]
  simp only [hoc]
  norm_num
  rw [unmarshalAck]
  rw [if_neg (by simp only [List.length_cons]; omega)]
  simp only [List.getD_cons_zero, List.getD_cons_succ]
  rw [show blk / 256 * 256 + blk % 256 = blk from by omega]

theorem Marshal_Error_bytes (code : Nat) (msg : List Nat) (hcode : code < 65536)
    (hmsg : msg.length = 0 ∨ ((∀ c ∈ msg, c ≠ 0) ∧ utf8Valid msg = true)) :
    Marshal (putUint16 5 ++ putUint16 code ++ nullTerminate msg) =
      .ok (.ErrorPacket 5 code msg) := by
  have hdiv : code / 256 % 256 = code / 256 := Nat.mod_eq_of_lt (by omega)
  have hb : putUint16 5 ++ putUint16 code ++ nullTerminate msg =
      0 :: 5 :: code / 256 :: code % 256 :: (msg ++ [0]) := by
    simp [putUint16, nullTerminate, hdiv]
  have hguard : ¬((0 :: 5 :: code / 256 :: code % 256 :: (msg ++ [0])).length < 2) := by simp
  rw [hb, Marshal, if_neg hguard]
  have hoc : opcode (0 :: 5 :: code / 256 :: code % 256 :: (msg ++ [0])) = 5 := by
    simp [opcode]
  simp only [hoc]
  norm_num
  rw [unmarshalError]
  rw [if_neg (by simp only [List.length_cons]; omega)]
  simp only [List.getD_cons_zero, List.getD_cons_succ, List.drop_succ_cons, List.drop_zero]
  rw [show code / 256 * 256 + code % 256 = code from by omega]
  cases msg with
  | nil =>
    simp only [List.nil_append]
    have hgnts : getNullTerminatedStrings [0] = ([], false) := by rfl
    rw [hgnts]
    simp
  | cons c msgt =>
    have hwf : (∀ x ∈ c :: msgt, x ≠ 0) ∧ utf8Valid (c :: msgt) = true := by
      rcases hmsg with h | h
      · simp at h
      · exact h
    have hj : (c :: msgt) ++ [0] = joinNul [c :: msgt] := by simp [joinNul]
    rw [hj]
    have hgnts : getNullTerminatedStrings (joinNul [c :: msgt]) = ([c :: msgt], false) := by
      refine gnts_joinNul _ ?_ (joinNul_cons_length _ (by simp))
      intro s hs
      rcases List.mem_singleton.mp hs with rfl
      exact ⟨by simp, hwf.1, hwf.2⟩
    rw [hgnts]
    simp [List.intersperse]

/-- C1: decoding the encoding of any well-formed in-range packet (any of the
six wire packet shapes) succeeds and returns the packet unchanged, and the
encoder never fails on such a packet. -/
theorem codec_roundtrip (p : Packet) (h : p.wfb = true) :
    ∃ bs, Unmarshal p = .ok bs ∧ Marshal bs = .ok p := by
  cases p with
  | ReadWriteRequest op fn mode opts =>
    simp only [Packet.wfb, Bool.and_eq_true, Bool.or_eq_true, decide_eq_true_eq,
      List.all_eq_true] at h
    obtain ⟨⟨⟨⟨hop, hfn⟩, hmode⟩, hr⟩, hnd⟩ := h
    exact ⟨_, rfl, Marshal_RW_bytes op fn mode opts hop hfn hmode hr hnd⟩
  | DataPacket op blk d =>
    simp only [Packet.wfb, Bool.and_eq_true, decide_eq_true_eq, List.all_eq_true] at h
    obtain ⟨⟨rfl, hblk⟩, _⟩ := h
    exact ⟨_, rfl, Marshal_Data_bytes blk d hblk⟩
  | AckPacket op blk =>
    simp only [Packet.wfb, Bool.and_eq_true, decide_eq_true_eq] at h
    obtain ⟨rfl, hblk⟩ := h
    exact ⟨_, rfl, Marshal_Ack_bytes blk hblk⟩
  | ErrorPacket op code msg =>
    simp only [Packet.wfb, Bool.and_eq_true, Bool.or_eq_true, decide_eq_true_eq,
      List.all_eq_true] at h
    obtain ⟨⟨rfl, hcode⟩, hmsg⟩ := h
    refine ⟨_, rfl, Marshal_Error_bytes code msg hcode ?_⟩
    rcases hmsg with h | h
    · exact Or.inl h
    · exact Or.inr ⟨h.1, h.2⟩
  | OAckPacket op opts =>
    simp only [Packet.wfb, Bool.and_eq_true, decide_eq_true_eq, List.all_eq_true] at h
    obtain ⟨⟨rfl, hr⟩, hnd⟩ := h
    exact ⟨_, rfl, Marshal_OAck_bytes opts hr hnd⟩

/-- C2 counterexample: a request whose final (and only) recognised option
pair fails validation (`blksize 1` is below the valid range) is rejected by
the decoder: the loop stores the validation failure in the function-scoped
`err` that `unmarshal` returns, so the request is NOT accepted, refuting the
claim that an option parse failure never causes decoding of the request to
fail. -/
theorem request_lastOption_parseFailure_aborts :
    Marshal ([0, 1] ++ strBytes "f" ++ [0] ++ strBytes "octet" ++ [0]
      ++ strBytes "blksize" ++ [0] ++ strBytes "1" ++ [0]) = .error .unmarshalErr := rfl

/-- C2 amended: an option whose name is unrecognised, or whose value fails
validation, is dropped without aborting the decode PROVIDED at least one
recognised option pair follows it (the shared `err` is then overwritten);
the decoded request carries exactly the surrounding valid options.  When the
failing pair is the last recognised one, decoding fails instead (see the
counterexample). -/
theorem request_optionFailure_dropped_if_not_last (op : Nat) (fn mode badVal : List Nat)
    (o : Option) (pre suf : List (Option × Int))
    (hop : op = 1 ∨ op = 2) (hfn : wfStr fn = true) (hmode : wfStr mode = true)
    (hbad : wfStr badVal = true) (ho : o ≠ .Unknown)
    (hfail : ValidateOptValue o badVal = .error ())
    (hr : ∀ ov ∈ pre ++ suf, inRange ov.1 ov.2 = true)
    (hnd : ((pre ++ suf).map Prod.fst).Nodup)
    (hsuf : suf ≠ []) :
    Marshal (putUint16 op ++ nullTerminate fn ++ nullTerminate mode
        ++ optBytes pre ++ nullTerminate (UnmarshalOpts o) ++ nullTerminate badVal
        ++ optBytes suf) =
      .ok (.ReadWriteRequest op fn mode (pre ++ suf)) := by
  have hd : op / 256 % 256 = 0 := by rcases hop with rfl | rfl <;> rfl
  have hmod : op % 256 = op := by rcases hop with rfl | rfl <;> rfl
  have hsegs : [fn, mode] ++ (optStrings pre ++ UnmarshalOpts o :: badVal :: optStrings suf) =
      [fn, mode] ++ optStrings pre ++ [UnmarshalOpts o] ++ [badVal] ++ optStrings suf := by
    simp
  have hb : putUint16 op ++ nullTerminate fn ++ nullTerminate mode
      ++ optBytes pre ++ nullTerminate (UnmarshalOpts o) ++ nullTerminate badVal
      ++ optBytes suf =
      0 :: op :: joinNul ([fn, mode]
        ++ (optStrings pre ++ UnmarshalOpts o :: badVal :: optStrings suf)) := by
    rw [hsegs]
    simp [putUint16, hd, hmod, nullTerminate, optBytes_eq_joinNul, joinNul_append, joinNul,
      List.append_assoc]
  have hwfall : ∀ s ∈ [fn, mode]
      ++ (optStrings pre ++ UnmarshalOpts o :: badVal :: optStrings suf),
      1 ≤ s.length ∧ (∀ c ∈ s, c ≠ 0) ∧ utf8Valid s = true := by
    intro s hs
    simp only [List.mem_append, List.mem_cons] at hs
    rcases hs with (rfl | rfl | hf) | hs2 | rfl | rfl | hs2
    · exact wfStr_triple hfn
    · exact wfStr_triple hmode
    · simp at hf
    · exact optStrings_wf s hs2
    · exact wfStr_triple (wfStr_UnmarshalOpts o)
    · exact wfStr_triple hbad
    · exact optStrings_wf s hs2
  have hgnts : getNullTerminatedStrings (joinNul ([fn, mode]
      ++ (optStrings pre ++ UnmarshalOpts o :: badVal :: optStrings suf))) =
      ([fn, mode] ++ (optStrings pre ++ UnmarshalOpts o :: badVal :: optStrings suf),
        false) := by
    refine gnts_joinNul _ hwfall ?_
    exact joinNul_cons_length _ (wfStr_triple hfn).1
  have hguard : ¬((0 :: op :: joinNul ([fn, mode]
      ++ (optStrings pre ++ UnmarshalOpts o :: badVal :: optStrings suf))).length < 2) := by
    simp
  rw [hb, Marshal, if_neg hguard]
  have hoc : opcode (0 :: op :: joinNul ([fn, mode]
      ++ (optStrings pre ++ UnmarshalOpts o :: badVal :: optStrings suf))) = op := by
    simp [opcode]
  simp only [hoc]
  rw [if_pos hop, unmarshalRW]
  simp only [List.drop_succ_cons, List.drop_zero, hgnts]
  simp only [List.cons_append, List.nil_append, List.length_cons, List.getD_cons_zero,
    List.getD_cons_succ, List.drop_succ_cons, List.drop_zero]
  rw [if_neg (by simp)]
  rw [if_pos (by omega)]
  have hpre : ∀ ov ∈ pre, inRange ov.1 ov.2 = true := fun ov hm =>
    hr ov (List.mem_append_left _ hm)
  have hsufr : ∀ ov ∈ suf, inRange ov.1 ov.2 = true := fun ov hm =>
    hr ov (List.mem_append_right _ hm)
  have hndpre : (pre.map Prod.fst).Nodup := by
    rw [List.map_append] at hnd
    exact hnd.of_append_left
  have hndsuf : (suf.map Prod.fst).Nodup := by
    rw [List.map_append] at hnd
    exact hnd.of_append_right
  have hloop : optLoop (optStrings pre ++ UnmarshalOpts o :: badVal :: optStrings suf)
      [] false = .ok (pre ++ suf) false := by
    rw [optLoop_goodPrefix pre _ [] false hpre hndpre (by simp)]
    rw [optLoop]
    simp only [MarshalOpts_UnmarshalOpts ho]
    rw [if_neg ho, hfail]
    dsimp only
    have hdisj : ∀ ov ∈ suf, ov.1 ∉ ([] ++ pre).map Prod.fst := by
      intro ov hm hmem
      simp only [List.nil_append] at hmem
      rw [List.map_append] at hnd
      rcases List.mem_map.mp hmem with ⟨ov2, hm2, he⟩
      have h1 : ov.1 ∈ pre.map Prod.fst := he ▸ List.mem_map_of_mem Prod.fst hm2
      have h2 : ov.1 ∈ suf.map Prod.fst := List.mem_map_of_mem Prod.fst hm
      exact (List.disjoint_of_nodup_append hnd) h1 h2
    rw [show (optStrings suf : List (List Nat)) = optStrings suf ++ [] from
      (List.append_nil _).symm]
    rw [optLoop_goodPrefix suf [] ([] ++ pre) true hsufr hndsuf hdisj]
    cases suf with
    | nil => exact absurd rfl hsuf
    | cons sv st => simp [optLoop]
  have hlen2 : 2 ≤ (optStrings pre ++ UnmarshalOpts o :: badVal :: optStrings suf).length := by
    simp
    omega
  rw [if_pos hlen2, hloop]
  have hlen1 : 1 ≤ (pre ++ suf).length := by
    cases suf with
    | nil => exact absurd rfl hsuf
    | cons sv st =>
      simp
      omega
  simp [hlen1]

/-- Witness for the amended C2: a request with a valid `blksize`, an
out-of-range `timeout 999` in the middle, and a valid `windowsize` after it
decodes successfully and drops only the failing option. -/
theorem request_optionFailure_dropped_witness :
    Marshal (putUint16 1 ++ nullTerminate (strBytes "f") ++ nullTerminate (strBytes "octet")
        ++ optBytes [(.Blksize, 1024)] ++ nullTerminate (UnmarshalOpts .Timeout)
        ++ nullTerminate (strBytes "999") ++ optBytes [(.Windowsize, 8)]) =
      .ok (.ReadWriteRequest 1 (strBytes "f") (strBytes "octet")
        [(.Blksize, 1024), (.Windowsize, 8)]) :=
  request_optionFailure_dropped_if_not_last 1 (strBytes "f") (strBytes "octet")
    (strBytes "999") .Timeout [(.Blksize, 1024)] [(.Windowsize, 8)]
    (Or.inl rfl) (by decide) (by decide) (by decide) (by decide) rfl
    (by decide) (by decide) (by decide)

theorem atoi_bounds {s : List Nat} {v : Int} (h : atoi s = .ok v) :
    -(2 ^ 63) ≤ v ∧ v < 2 ^ 63 := by
  have hdig : ∀ (ds : List Nat) (neg : Bool), atoiDigits ds neg = .ok v →
      -(2 ^ 63) ≤ v ∧ v < 2 ^ 63 := by
    intro ds neg hd
    rw [atoiDigits] at hd
    split at hd
    · exact absurd hd (by simp)
    · split at hd
      · split at hd
        · split at hd
          · rename_i hle
            injection hd with hv
            subst hv
            have h0 : (0 : Int) ≤ ((digitsToNat ds : Nat) : Int) := Int.ofNat_nonneg _
            have h1 : ((digitsToNat ds : Nat) : Int) ≤ 2 ^ 63 := by exact_mod_cast hle
            constructor
            · omega
            · omega
          · exact absurd hd (by simp)
        · split at hd
          · rename_i hlt
            injection hd with hv
            subst hv
            have h0 : (0 : Int) ≤ ((digitsToNat ds : Nat) : Int) := Int.ofNat_nonneg _
            have h1 : ((digitsToNat ds : Nat) : Int) < 2 ^ 63 := by exact_mod_cast hlt
            constructor
            · omega
            · omega
          · exact absurd hd (by simp)
      · exact absurd hd (by simp)
  cases s with
  | nil => simp [atoi] at h
  | cons c rest =>
    rw [atoi] at h
    split at h
    · exact hdig _ _ h
    · split at h
      · exact hdig _ _ h
      · exact hdig _ _ h

theorem ValidateOptValue_ok_range {o : Option} {val : List Nat} {v : Int}
    (h : ValidateOptValue o val = .ok v) : decodedRange o v := by
  rw [ValidateOptValue] at h
  split at h
  · exact absurd h (by simp)
  · rename_i n hatoi
    split at h
    · split at h
      · rename_i hcond
        injection h with hv
        subst hv
        simpa [decodedRange] using hcond
      · exact absurd h (by simp)
    · split at h
      · rename_i hcond
        injection h with hv
        subst hv
        simpa [decodedRange] using hcond
      · exact absurd h (by simp)
    · injection h with hv
      subst hv
      simpa [decodedRange] using atoi_bounds hatoi
    · split at h
      · rename_i hcond
        injection h with hv
        subst hv
        simpa [decodedRange] using hcond
      · exact absurd h (by simp)
    · exact absurd h (by simp)

theorem mapSet_forall {P : Option × Int → Prop} {m : List (Option × Int)} {k : Option}
    {v : Int} (hm : ∀ ov ∈ m, P ov) (hk : P (k, v)) :
    ∀ ov ∈ mapSet m k v, P ov := by
  induction m with
  | nil =>
    intro ov hov
    rcases List.mem_singleton.mp hov with rfl
    exact hk
  | cons kv rest ih =>
    intro ov hov
    rw [mapSet] at hov
    split at hov
    · rcases List.mem_cons.mp hov with rfl | h2
      · exact hk
      · exact hm ov (List.mem_cons_of_mem _ h2)
    · rcases List.mem_cons.mp hov with rfl | h2
      · exact hm _ (List.mem_cons_self _ _)
      · exact ih (fun x hx => hm x (List.mem_cons_of_mem _ hx)) ov h2

theorem optLoop_ok_range :
    ∀ (n : Nat) (l : List (List Nat)) (acc : List (Option × Int)) (e : Bool)
      (res : List (Option × Int)) (e2 : Bool),
      l.length ≤ n →
      (∀ ov ∈ acc, decodedRange ov.1 ov.2) →
      optLoop l acc e = .ok res e2 →
      ∀ ov ∈ res, decodedRange ov.1 ov.2 := by
  intro n
  induction n with
  | zero =>
    intro l acc e res e2 hlen hacc h
    have : l = [] := List.length_eq_zero.mp (by omega)
    subst this
    rw [optLoop] at h
    injection h with h1 h2
    subst h1
    exact hacc
  | succ m ih =>
    intro l acc e res e2 hlen hacc h
    match l with
    | [] =>
      rw [optLoop] at h
      injection h with h1 h2
      subst h1
      exact hacc
    | [name] =>
      rw [optLoop] at h
      split at h
      · injection h with h1 h2
        subst h1
        exact hacc
      · exact absurd h (by simp)
    | name :: val :: rest =>
      rw [optLoop] at h
      split at h
      · exact ih rest acc e res e2 (by simp at hlen ⊢; omega) hacc h
      · split at h
        · rename_i v hval
          exact ih rest _ false res e2 (by simp at hlen ⊢; omega)
            (mapSet_forall hacc (ValidateOptValue_ok_range hval)) h
        · exact ih rest acc true res e2 (by simp at hlen ⊢; omega) hacc h

theorem unmarshalRW_options_range {op : Nat} {b : List Nat} {p : Packet}
    (h : unmarshalRW op b = .ok p) : ∀ ov ∈ p.optionsOf, decodedRange ov.1 ov.2 := by
  rw [unmarshalRW] at h
  split at h
  · exact absurd h (by simp)
  · dsimp only at h
    split at h
    · split at h
      · split at h
        · exact absurd h (by simp)
        · split at h
          · exact absurd h (by simp)
          · rename_i options err hloop hne
            injection h with hp
            subst hp
            simp only [Packet.optionsOf]
            split
            · exact optLoop_ok_range _ _ [] false options err le_rfl (by simp) hloop
            · simp
      · injection h with hp
        subst hp
        simp [Packet.optionsOf]
    · injection h with hp
      subst hp
      simp [Packet.optionsOf]

theorem unmarshalOAck_options_range {op : Nat} {b : List Nat} {p : Packet}
    (h : unmarshalOAck op b = .ok p) : ∀ ov ∈ p.optionsOf, decodedRange ov.1 ov.2 := by
  rw [unmarshalOAck] at h
  split at h
  · split at h
    · exact absurd h (by simp)
    · rename_i options err hloop
      injection h with hp
      subst hp
      simp only [Packet.optionsOf]
      split
      · exact optLoop_ok_range _ _ [] false options err le_rfl (by simp) hloop
      · simp
  · split at h
    · exact absurd h (by simp)
    · injection h with hp
      subst hp
      simp [Packet.optionsOf]

/-- C3 amended: every option value of a decoded `ReadWriteRequest` or
`OAckPacket` is in the valid range for `Blksize`, `Timeout` and
`Windowsize`; a decoded `Tsize` however is only constrained to the 64-bit
signed-integer bounds of `strconv.Atoi` — it may be negative, because
`ValidateOptValue` returns any parsed `Tsize` without a range check. -/
theorem decoded_options_in_range (b : List Nat) (p : Packet) (h : Marshal b = .ok p) :
    ∀ ov ∈ p.optionsOf, decodedRange ov.1 ov.2 := by
  rw [Marshal] at h
  split at h
  · exact absurd h (by simp)
  · dsimp only at h
    split at h
    · exact unmarshalRW_options_range h
    · split at h
      · rw [unmarshalData] at h
        split at h
        · exact absurd h (by simp)
        · injection h with hp
          subst hp
          simp [Packet.optionsOf]
      · split at h
        · rw [unmarshalAck] at h
          split at h
          · exact absurd h (by simp)
          · injection h with hp
            subst hp
            simp [Packet.optionsOf]
        · split at h
          · exact unmarshalOAck_options_range h
          · split at h
            · rw [unmarshalError] at h
              split at h
              · exact absurd h (by simp)
              · dsimp only at h
                split at h
                · exact absurd h (by simp)
                · injection h with hp
                  subst hp
                  simp [Packet.optionsOf]
            · exact absurd h (by simp)

/-- Witness for the amended C3: apply the range theorem to the concrete
request that carries `tsize -1` and `blksize 8`; both decoded entries
satisfy the amended ranges, the negative transfer size included. -/
theorem decoded_options_in_range_witness :
    decodedRange Option.Tsize (-1) ∧ decodedRange Option.Blksize 8 :=
  ⟨decoded_options_in_range
      ([0, 1] ++ strBytes "f" ++ [0] ++ strBytes "octet" ++ [0] ++ strBytes "tsize" ++ [0]
        ++ strBytes "-1" ++ [0] ++ strBytes "blksize" ++ [0] ++ strBytes "8" ++ [0])
      (.ReadWriteRequest 1 (strBytes "f") (strBytes "octet") [(.Tsize, -1), (.Blksize, 8)])
      (by exact rfl) (Option.Tsize, -1) (by decide),
    decoded_options_in_range
      ([0, 1] ++ strBytes "f" ++ [0] ++ strBytes "octet" ++ [0] ++ strBytes "tsize" ++ [0]
        ++ strBytes "-1" ++ [0] ++ strBytes "blksize" ++ [0] ++ strBytes "8" ++ [0])
      (.ReadWriteRequest 1 (strBytes "f") (strBytes "octet") [(.Tsize, -1), (.Blksize, 8)])
      (by exact rfl) (Option.Blksize, 8) (by decide)⟩

/-- C3 counterexample: a request carrying `tsize -1` decodes successfully
and the decoded options map contains the negative value, refuting the claim
that a decoded `Tsize` is always a non-negative integer. -/
theorem decoded_tsize_negative :
    Marshal ([0, 1] ++ strBytes "f" ++ [0] ++ strBytes "octet" ++ [0] ++ strBytes "tsize"
        ++ [0] ++ strBytes "-1" ++ [0]) =
      .ok (.ReadWriteRequest 1 (strBytes "f") (strBytes "octet") [(.Tsize, -1)]) ∧
      ((-1 : Int) < 0) :=
  ⟨rfl, by decide⟩

/-- Witness for C1 at a concrete write request carrying two options. -/
theorem codec_roundtrip_witness :
    Packet.wfb (.ReadWriteRequest 2 (strBytes "outfile.bin") (strBytes "octet")
        [(.Blksize, 1024), (.Timeout, 5)]) = true ∧
      ∃ bs, Unmarshal (.ReadWriteRequest 2 (strBytes "outfile.bin") (strBytes "octet")
          [(.Blksize, 1024), (.Timeout, 5)]) = .ok bs ∧
        Marshal bs = .ok (.ReadWriteRequest 2 (strBytes "outfile.bin") (strBytes "octet")
          [(.Blksize, 1024), (.Timeout, 5)]) :=
  ⟨by decide, codec_roundtrip _ (by decide)⟩


end dit

namespace dit

/-- C4: decode on malformed input.  Opcodes outside one to six are rejected
with the `not recognized` error (second and third conjuncts), but a Data or
Ack packet shorter than four bytes does NOT produce a typed truncation
error: `unmarshal` slices `b[2:4]` unconditionally, which on an
exact-length slice is an out-of-range panic, modelled as `DecodeErr.crash`.
No `TruncatedPacket` error exists anywhere in the code. -/
theorem decode_short_data_ack_crashes :
    Marshal [0, 4, 0] = .error .crash ∧ Marshal [0, 3, 0] = .error .crash ∧
      Marshal [0, 7, 1, 2] = .error (.unrecognizedOpcode 7) ∧
      Marshal [0, 0] = .error (.unrecognizedOpcode 0) :=
  ⟨rfl, rfl, rfl, rfl⟩

/-- C5: after `ReadNext` returns count `k`, the retransmission buffer holds
exactly the `k` bytes placed at the front of the caller's buffer, its
length is `k`, and `ReadBuffer` returns exactly those bytes — except that
on a zero-byte read the buffer (and the whole state) is left untouched, as
the source only overwrites it when at least one byte was read. -/
theorem readNext_replay_postcondition (f : FileBuffer) (b : List Nat) :
    (f.ReadNext b).state.buf =
      (if (f.ReadNext b).count = 0 then f.buf
        else (f.ReadNext b).filled.take (f.ReadNext b).count) ∧
    (if (f.ReadNext b).count = 0 then (f.ReadNext b).state = f
      else (f.ReadNext b).state.BufferLen = (f.ReadNext b).count) ∧
    ((f.ReadNext b).state.ReadBuffer (List.replicate (f.ReadNext b).count 0)).2.1 =
      (f.ReadNext b).filled.take (f.ReadNext b).count := by
  by_cases hk : min b.length f.src.length = 0
  · simp [FileBuffer.ReadNext, FileBuffer.Read, FileBuffer.ReadBuffer, FileBuffer.BufferLen, hk]
  · have hkpos : 0 < min b.length f.src.length := Nat.pos_of_ne_zero hk
    have htake : (f.src.take (min b.length f.src.length)
        ++ b.drop (min b.length f.src.length)).take (min b.length f.src.length) =
        f.src.take (min b.length f.src.length) := by
      refine List.take_left' ?_
      rw [List.length_take]
      omega
    have hlen : (f.src.take (min b.length f.src.length)).length =
        min b.length f.src.length := by
      rw [List.length_take]
      omega
    have hrn : f.ReadNext b = ⟨min b.length f.src.length,
        f.src.take (min b.length f.src.length) ++ b.drop (min b.length f.src.length),
        ⟨f.src.drop (min b.length f.src.length), f.sink,
          f.src.take (min b.length f.src.length)⟩,
        decide (min b.length f.src.length = 0 ∧ 1 ≤ b.length)⟩ := by
      simp only [FileBuffer.ReadNext, FileBuffer.Read, if_pos hkpos, htake]
    rw [hrn]
    simp only [if_neg hk]
    refine ⟨htake.symm, ?_, ?_⟩
    · simp [FileBuffer.BufferLen, hlen]
    · simp only [FileBuffer.ReadBuffer, hlen, List.length_replicate, Nat.min_self, htake]
      rw [List.take_of_length_le (le_of_eq hlen), List.drop_of_length_le (by simp),
        List.append_nil]

/-- C6: evaluation of the source at the failing input.  Two successive
`WriteNext` calls on a fresh `FileBuffer` APPEND to the retransmission
buffer (the source never resets it on the write path, unlike `ReadNext`),
so after the second call, which returns two, the buffer holds all four
bytes ever written instead of the two bytes of the latest write — refuting
the claim that the replay buffer contains the first `k` bytes of `b` after
every successful `writeNext(b)`. -/
theorem writeNext_replay_accumulates :
    ((NewFileBuffer.WriteNext [1, 2]).state.WriteNext [3, 4]).count = 2 ∧
    ((NewFileBuffer.WriteNext [1, 2]).state.WriteNext [3, 4]).state.buf = [1, 2, 3, 4] ∧
    ((NewFileBuffer.WriteNext [1, 2]).state.WriteNext [3, 4]).state.buf ≠
      ([3, 4] : List Nat).take 2 :=
  ⟨rfl, rfl, by decide⟩

/-- C7: on a connected `Conn`, a successfully received datagram yields
`ErrUnexpectedTID` exactly when its source address differs from the stored
peer transfer identifier, and the connection state (peer TID and connected
flag included) is unchanged either way, so the errant datagram cannot abort
the transfer. -/
theorem conn_read_unknown_tid (c : Conn) (b data : List Nat) (src : AddrPort)
    (hc : c.connected = true) :
    ((c.Read b (.ok data src)).err = .unexpectedTID ↔ src ≠ c.destTID) ∧
      (c.Read b (.ok data src)).state = c := by
  simp only [Conn.Read, hc, if_true]
  by_cases h : src = c.destTID
  · simp [h]
  · simp [h]

/-- Witness for C7 at a concrete connected endpoint and a rogue source
port. -/
theorem conn_read_unknown_tid_witness :
    ((Conn.Read ⟨⟨1, 69⟩, true⟩ [0, 0, 0, 0] (.ok [0, 4, 0, 1] ⟨1, 70⟩)).err =
        .unexpectedTID ↔ (⟨1, 70⟩ : AddrPort) ≠ (Conn.mk ⟨1, 69⟩ true).destTID) ∧
      (Conn.Read ⟨⟨1, 69⟩, true⟩ [0, 0, 0, 0] (.ok [0, 4, 0, 1] ⟨1, 70⟩)).state =
        ⟨⟨1, 69⟩, true⟩ :=
  conn_read_unknown_tid ⟨⟨1, 69⟩, true⟩ [0, 0, 0, 0] [0, 4, 0, 1] ⟨1, 70⟩ rfl

/-- C10: `ReadBuffer` is non-destructive.  It copies
`min (len b) (BufferLen())` bytes of the retransmission buffer into the
front of `b`, leaves the `FileBuffer` (hence the buffer contents and
`BufferLen`) unchanged, a buffer of exactly `BufferLen()` receives the
whole replay content, and an immediately repeated call returns the same
count and bytes, as needed for repeated retransmissions of one block. -/
theorem readBuffer_nondestructive (f : FileBuffer) (b : List Nat) :
    (f.ReadBuffer b).1 = min b.length f.BufferLen ∧
    (f.ReadBuffer b).2.2 = f ∧
    (f.ReadBuffer b).2.1 =
      f.buf.take (min b.length f.BufferLen) ++ b.drop (min b.length f.BufferLen) ∧
    (f.ReadBuffer (List.replicate f.BufferLen 0)).2.1 = f.buf ∧
    ((f.ReadBuffer b).2.2.ReadBuffer b) = f.ReadBuffer b := by
  refine ⟨rfl, rfl, rfl, ?_, rfl⟩
  simp only [FileBuffer.ReadBuffer, FileBuffer.BufferLen, List.length_replicate, Nat.min_self]
  rw [List.take_of_length_le le_rfl, List.drop_of_length_le (by simp), List.append_nil]

end dit

namespace ditp2

/-- C8: one polling step of the listener.  For a first datagram whose
opcode is neither `Rrq` nor `Wrq`, `AcceptRange` writes an
`IllegalOperation` error packet back to the datagram's source; for an
initial-opcode datagram that fails to decode it writes a `NotDefined`
error packet; in both cases it continues polling the remaining traffic —
the result is the result of accepting on the rest, with the one error
reply recorded, never a connection for the offending datagram and never
termination. -/
theorem accept_bad_first_datagram_replies_and_continues (c : Conn) (lo hi : Nat)
    (e : AcceptEvent) (rest : List AcceptEvent)
    (hc : c.connected = false) (hlen2 : 2 ≤ e.data.length)
    (h : ¬(dit.opcode e.data = 1 ∨ dit.opcode e.data = 2) ∨
        ((dit.opcode e.data = 1 ∨ dit.opcode e.data = 2) ∧
          ∃ er, dit.Marshal e.data = .error er)) :
    c.AcceptRange lo hi (e :: rest) =
      (c.AcceptRange lo hi rest).consSent
        ((if dit.opcode e.data = 1 ∨ dit.opcode e.data = 2 then
            errPacketBytes 0 (dit.strBytes "could not decode packet")
          else errPacketBytes 4 (dit.strBytes "cannot perform operation")), e.raddr) := by
  rw [Conn.AcceptRange, Conn.AcceptRange, if_neg (by simp [hc]), if_neg (by simp [hc])]
  rcases h with hno | ⟨hyes, er, herr⟩
  · rw [acceptLoop, if_pos hno, if_neg hno]
  · rw [acceptLoop, if_neg (not_not_intro hyes), herr, if_pos hyes]

/-- Witness for C8: an Ack packet as first datagram draws an
`IllegalOperation` reply and polling continues on the remaining events. -/
theorem accept_bad_first_datagram_witness :
    Conn.AcceptRange ⟨.nil, 0, false, []⟩ 0 0
        [⟨[0, 4, 0, 1], ⟨9, 5555⟩, fun _ => .err⟩] =
      (Conn.AcceptRange ⟨.nil, 0, false, []⟩ 0 0 []).consSent
        ((if dit.opcode [0, 4, 0, 1] = 1 ∨ dit.opcode [0, 4, 0, 1] = 2 then
            errPacketBytes 0 (dit.strBytes "could not decode packet")
          else errPacketBytes 4 (dit.strBytes "cannot perform operation")), ⟨9, 5555⟩) :=
  accept_bad_first_datagram_replies_and_continues ⟨.nil, 0, false, []⟩ 0 0
    ⟨[0, 4, 0, 1], ⟨9, 5555⟩, fun _ => .err⟩ [] rfl (by decide)
    (Or.inl (by decide))

/-- C9: evaluation of the source at the failing input.  For every non-zero
port range, `connectWithRange` executes ZERO dial attempts and returns a
nil connection with a nil error: the retry loop guard is `i > 10` with `i`
starting at zero, so the body that would pick a random port in `[lo, hi]`
and bind it never runs — refuting the claim that the bind attempt is
executed at least once (and retried up to ten times). -/
theorem connectWithRange_nonzero_never_dials (lo hi : Nat) (env : Nat → DialRes)
    (h : ¬(lo = 0 ∧ hi = 0)) :
    connectWithRange lo hi env = ⟨.nil, false, 0⟩ := by
  rw [connectWithRange, if_neg h]

/-- Witness for C9 at the concrete range 2000 to 3000 with an
always-failing dial oracle. -/
theorem connectWithRange_nonzero_never_dials_witness :
    connectWithRange 2000 3000 (fun _ => .err) = ⟨.nil, false, 0⟩ :=
  connectWithRange_nonzero_never_dials 2000 3000 (fun _ => .err) (by decide)

end ditp2
